import Mathlib

/-!
# Verification of the Urban_Gentrification SES pipeline

Shallow embedding, in Lean 4, of the two algorithmic subsystems of the
repository: the spatial missing-value imputation engine
(`pca/dataset.py`, class `ACSData`) and the transform / scale / rank
scoring engine (`pca/pca_analysis.py`).

Conventions used throughout:
* a pandas/numpy `NaN` cell is modelled as `none : Option ℝ`;
* tract identifiers (`geo11` strings), county names and column names are
  modelled as natural numbers, except where a concrete column name matters
  (the `median_hh_inc` special case of `transform`, kept as a `String`);
* floating point numbers are idealised as real numbers (`ℝ`) for the
  imputation/scaling engines and as rationals (`ℚ`) for the rank engine,
  whose arithmetic is exact;
* library calls (pandas `rank`/`median`, numpy `percentile`,
  `scipy.stats.gmean`, `scipy.stats.boxcox`, sklearn `RobustScaler`) are
  embedded by their documented semantics on the value domain the pipeline
  feeds them.
-/

/-! ## Real-valued list statistics (numpy / pandas semantics) -/

/-- Ascending sort of a list of reals (numpy sorts before computing order
statistics).  The comparison is the classical order on `ℝ`. -/
noncomputable def sortR (xs : List ℝ) : List ℝ :=
  xs.mergeSort (fun a b => decide (a ≤ b))

/-- Embedding of `numpy.median` / `pandas.Series.median` on a list of
(non-NaN) values:
the middle element of the sorted list for odd length, the average of the two
middle elements for even length.  Callers guard against the empty list. -/
noncomputable def medianList (xs : List ℝ) : ℝ :=
  let s := sortR xs
  if s.length % 2 = 1 then s.getD (s.length / 2) 0
  else (s.getD (s.length / 2 - 1) 0 + s.getD (s.length / 2) 0) / 2

/-- Embedding of `pandas.Series.median` with `skipna=True` on a column
that may be all
NaN: NaN (here `none`) when no known value exists, otherwise the median of
the known values. -/
noncomputable def medianOpt (ks : List ℝ) : Option ℝ :=
  if ks.isEmpty then none else some (medianList ks)

theorem sortR_perm (xs : List ℝ) : List.Perm (sortR xs) xs :=
  List.mergeSort_perm xs _

theorem sortR_of_sorted {xs : List ℝ} (h : xs.Pairwise (· ≤ ·)) :
    sortR xs = xs := by
  apply List.mergeSort_of_sorted
  exact h.imp (fun hab => decide_eq_true hab)

theorem sortR_length (xs : List ℝ) : (sortR xs).length = xs.length :=
  (sortR_perm xs).length_eq

theorem sortR_mem {xs : List ℝ} {x : ℝ} (h : x ∈ sortR xs) : x ∈ xs :=
  (sortR_perm xs).mem_iff.mp h

/-- Every entry the median picks out of a list of nonnegative values is
nonnegative. -/
theorem medianList_nonneg {xs : List ℝ} (h : ∀ x ∈ xs, 0 ≤ x) :
    0 ≤ medianList xs := by
  have hmem : ∀ i : ℕ, 0 ≤ (sortR xs).getD i 0 := by
    intro i
    by_cases hi : i < (sortR xs).length
    · have : (sortR xs).getD i 0 ∈ sortR xs := by
        rw [List.getD_eq_getElem _ _ hi]
        exact List.getElem_mem hi
      exact h _ (sortR_mem this)
    · rw [List.getD_eq_default _ _ (Nat.le_of_not_lt hi)]
  unfold medianList
  by_cases hpar : (sortR xs).length % 2 = 1
  · simpa [hpar] using hmem ((sortR xs).length / 2)
  · have h1 := hmem ((sortR xs).length / 2 - 1)
    have h2 := hmem ((sortR xs).length / 2)
    simp only [hpar, if_false]
    linarith

/-! ## Imputation engine (`pca/dataset.py`, class `ACSData`) -/

/-- The tract-by-variable table held in `ACSData.data`.  `tracts` is the
`geo11` index (tract identifiers as naturals), `county` the non-numeric
`County` column, `cols` the numeric variable columns, and `val t c` the
numeric cell for tract `t` and column `c` (`none` models NaN). -/
structure ACSTable where
  tracts : List ℕ
  county : ℕ → ℕ
  cols : List ℕ
  val : ℕ → ℕ → Option ℝ

/-- Embeds `ACSData.merge_geodata(state, county)`: the index of the
GeoDataFrame
obtained by restricting the table to rows whose `County` equals `county`
and inner-joining with the shapefile index `geo` (tracts that have a
geometry).  Row values are a copy of `self.data` at call time. -/
def mergeIndex (T : ACSTable) (geo : List ℕ) (co : ℕ) : List ℕ :=
  T.tracts.filter (fun t => T.county t == co && geo.contains t)

/-- Embeds `ACSData.findna`: the columns having at least one NaN anywhere
in the
table (the keys of the returned count dictionary). -/
def findnaCols (T : ACSTable) : List ℕ :=
  T.cols.filter (fun c => T.tracts.any (fun t => (T.val t c).isNone))

/-- The known (non-NaN) values of column `c` over a row index `idx`
(`df[column]` with NaNs skipped, as pandas `median` does). -/
def colKnown (v : ℕ → ℕ → Option ℝ) (idx : List ℕ) (c : ℕ) : List ℝ :=
  idx.filterMap (fun t => v t c)

open Classical in
/-- Embedding of `scipy.stats.gmean` on a nonempty list of floats, as an
`Option`
(`none` models a NaN result): any negative input makes `log` produce NaN,
so the result is NaN; otherwise a zero input makes the log-mean `-inf` and
the result `exp(-inf) = 0`; for positive inputs the result is the
geometric mean `(∏ xs) ^ (1 / n)`. -/
noncomputable def scipyGmean (xs : List ℝ) : Option ℝ :=
  if ∃ x ∈ xs, x < 0 then none
  else if ∃ x ∈ xs, x = 0 then some 0
  else some (xs.prod ^ ((xs.length : ℝ))⁻¹)

/-- Embeds `ACSData.get_gmean_from_neighbors(w, df, tract, column)`: look
up the
snapshot values of the tract's Queen neighbours for the column; if not all
of them are NaN, return the geometric mean of the non-NaN ones, otherwise
fall back to the median of the column over the whole (county-restricted)
snapshot `df`. -/
noncomputable def getGmeanFromNeighbors (snap : ℕ → ℕ → Option ℝ)
    (dfIdx : List ℕ) (w : ℕ → List ℕ) (t c : ℕ) : Option ℝ :=
  let known := ((w t).map (fun u => snap u c)).filterMap id
  if known.isEmpty then medianOpt (colKnown snap dfIdx c)
  else scipyGmean known

/-- The inner loop of `ACSData.fillna` for one column: for each tract in
`order` (the tracts of the county whose snapshot cell is NaN), write the
value computed by `get_gmean_from_neighbors` — always from the frozen
snapshot `snap`, never from the live table — into the live table `v`. -/
noncomputable def fillnaColPass (snap : ℕ → ℕ → Option ℝ) (dfIdx : List ℕ)
    (w : ℕ → List ℕ) (c : ℕ) (order : List ℕ) (v : ℕ → ℕ → Option ℝ) :
    ℕ → ℕ → Option ℝ :=
  order.foldl
    (fun acc t => fun t1 c1 =>
      if t1 = t ∧ c1 = c then getGmeanFromNeighbors snap dfIdx w t c
      else acc t1 c1) v

/-- Embeds `ACSData.fillna(state, county)`: build the county GeoDataFrame
`df`
(a copy — the snapshot), its Queen weights `w`, then for every column with
a NaN anywhere fill the NaN cells of the county from the snapshot. -/
noncomputable def fillna (T : ACSTable) (geo : List ℕ) (w : ℕ → List ℕ)
    (co : ℕ) : ACSTable :=
  let dfIdx := mergeIndex T geo co
  let snap := T.val
  let nans := findnaCols T
  { T with
    val := nans.foldl
      (fun v c =>
        fillnaColPass snap dfIdx w c
          (dfIdx.filter (fun t => (snap t c).isNone)) v)
      T.val }

/-- Embeds `ACSData.impute_missing_values`: run `fillna` for every
configured
county in order.  `geo co` is the shapefile index for the county's state
and `w co` the Queen adjacency computed on the county GeoDataFrame. -/
noncomputable def imputeMissingValues (T : ACSTable) (geo : ℕ → List ℕ)
    (w : ℕ → ℕ → List ℕ) (counties : List ℕ) : ACSTable :=
  counties.foldl (fun S co => fillna S (geo co) (w co) co) T

/-! ### Characterisation of the fill passes -/

/-- One column pass writes exactly the cells `(t, c)` with `t` in the
processing order, each with the value computed from the frozen snapshot;
every other cell of the live table is untouched. -/
theorem fillnaColPass_apply (snap : ℕ → ℕ → Option ℝ) (dfIdx : List ℕ)
    (w : ℕ → List ℕ) (c : ℕ) (order : List ℕ) (v : ℕ → ℕ → Option ℝ)
    (t1 c1 : ℕ) :
    fillnaColPass snap dfIdx w c order v t1 c1 =
      if c1 = c ∧ t1 ∈ order then getGmeanFromNeighbors snap dfIdx w t1 c
      else v t1 c1 := by
  induction order generalizing v with
  | nil => simp [fillnaColPass]
  | cons t ts ih =>
    show fillnaColPass snap dfIdx w c ts _ t1 c1 = _
    rw [ih]
    by_cases hc : c1 = c
    · by_cases hts : t1 ∈ ts
      · simp [hc, hts]
      · by_cases htt : t1 = t
        · simp [hc, hts, htt]
        · simp [hc, hts, htt]
    · simp [hc]

/-- The call `ACSData.fillna` writes exactly the cells that are NaN in the
snapshot,
lie in a column with a missing value somewhere, and belong to a tract of
the county GeoDataFrame; each written value is computed from the snapshot.
All other cells are unchanged. -/
theorem fillna_val (T : ACSTable) (geo : List ℕ) (w : ℕ → List ℕ) (co : ℕ)
    (t1 c1 : ℕ) :
    (fillna T geo w co).val t1 c1 =
      if c1 ∈ findnaCols T ∧ t1 ∈ mergeIndex T geo co ∧ T.val t1 c1 = none
      then getGmeanFromNeighbors T.val (mergeIndex T geo co) w t1 c1
      else T.val t1 c1 := by
  show (findnaCols T).foldl _ T.val t1 c1 = _
  generalize hN : findnaCols T = nans
  have main : ∀ (nans : List ℕ) (v : ℕ → ℕ → Option ℝ),
      (nans.foldl
        (fun v c =>
          fillnaColPass T.val (mergeIndex T geo co) w c
            ((mergeIndex T geo co).filter (fun t => (T.val t c).isNone)) v)
        v) t1 c1 =
      if c1 ∈ nans ∧ t1 ∈ mergeIndex T geo co ∧ T.val t1 c1 = none
      then getGmeanFromNeighbors T.val (mergeIndex T geo co) w t1 c1
      else v t1 c1 := by
    intro nans
    induction nans with
    | nil => intro v; simp
    | cons c cs ih =>
      intro v
      rw [List.foldl_cons, ih, fillnaColPass_apply]
      by_cases hmem : c1 ∈ cs ∧ t1 ∈ mergeIndex T geo co ∧ T.val t1 c1 = none
      · simp only [hmem.1, hmem.2.1, hmem.2.2, and_true, true_and, if_true,
          List.mem_cons, or_true]
      · by_cases hc : c1 = c
        · subst hc
          by_cases hord : t1 ∈ (mergeIndex T geo co).filter
              (fun t => (T.val t c1).isNone)
          · have h1 : t1 ∈ mergeIndex T geo co := (List.mem_filter.mp hord).1
            have h2 : T.val t1 c1 = none := by
              have := (List.mem_filter.mp hord).2
              simpa [Option.isNone_iff_eq_none] using this
            simp only [h1, h2, and_true, true_and] at hmem
            simp [hmem, hord, h1, h2]
          · have hnot : ¬(t1 ∈ mergeIndex T geo co ∧ T.val t1 c1 = none) := by
              intro hcon
              exact hord (List.mem_filter.mpr ⟨hcon.1, by simp [hcon.2]⟩)
            have hA1 : ¬(c1 ∈ cs ∧ t1 ∈ mergeIndex T geo co ∧
                T.val t1 c1 = none) := fun h => hnot h.2
            have hA2 : ¬(c1 ∈ c1 :: cs ∧ t1 ∈ mergeIndex T geo co ∧
                T.val t1 c1 = none) := fun h => hnot h.2
            simp [hord, hA1, hA2, hnot]
        · have : ¬(c1 ∈ c :: cs ∧ t1 ∈ mergeIndex T geo co ∧
              T.val t1 c1 = none) := by
            intro hcon
            rcases List.mem_cons.mp hcon.1 with h | h
            · exact hc h
            · exact hmem ⟨h, hcon.2⟩
          simp [hmem, hc, this]
  exact main nans T.val

/-- The call `fillna` changes only the `val` field. -/
theorem fillna_fields (T : ACSTable) (geo : List ℕ) (w : ℕ → List ℕ)
    (co : ℕ) :
    (fillna T geo w co).tracts = T.tracts ∧
    (fillna T geo w co).county = T.county ∧
    (fillna T geo w co).cols = T.cols :=
  ⟨rfl, rfl, rfl⟩

/-- A known cell survives one `fillna` call unchanged. -/
theorem fillna_preserves_some {T : ACSTable} {geo : List ℕ}
    {w : ℕ → List ℕ} {co t c : ℕ} {x : ℝ} (h : T.val t c = some x) :
    (fillna T geo w co).val t c = some x := by
  rw [fillna_val]
  simp [h]

/-- A known cell survives `impute_missing_values` unchanged. -/
theorem impute_preserves_some {T : ACSTable} {geo : ℕ → List ℕ}
    {w : ℕ → ℕ → List ℕ} {counties : List ℕ} {t c : ℕ} {x : ℝ}
    (h : T.val t c = some x) :
    (imputeMissingValues T geo w counties).val t c = some x := by
  induction counties generalizing T with
  | nil => exact h
  | cons co rest ih =>
    show (imputeMissingValues (fillna T (geo co) (w co) co) geo w rest).val
        t c = some x
    exact ih (fillna_preserves_some h)

/-! ### Claims C3, C4, C10 -/

/-- C4: within one column's imputation pass every fill is computed from the
same pre-fill snapshot, so any two processing orders of the tracts missing
that column (in particular, a pair of mutually-neighbouring tracts both
missing it, in either order) produce identical filled tables. -/
theorem c4_fill_order_independent (snap : ℕ → ℕ → Option ℝ)
    (dfIdx : List ℕ) (w : ℕ → List ℕ) (c : ℕ) (order1 order2 : List ℕ)
    (h : List.Perm order1 order2) (v : ℕ → ℕ → Option ℝ) :
    fillnaColPass snap dfIdx w c order1 v =
      fillnaColPass snap dfIdx w c order2 v := by
  funext t1 c1
  rw [fillnaColPass_apply, fillnaColPass_apply]
  simp [h.mem_iff]

/-- Witness for C4: tracts `0` and `1` are each other's only neighbour and
both miss column `0`; processing them as `[0, 1]` or as `[1, 0]` yields
the same table. -/
theorem c4_fill_order_independent_witness :
    fillnaColPass (fun _ _ => none) [0, 1]
        (fun t => if t = 0 then [1] else if t = 1 then [0] else []) 0
        [0, 1] (fun _ _ => none) =
      fillnaColPass (fun _ _ => none) [0, 1]
        (fun t => if t = 0 then [1] else if t = 1 then [0] else []) 0
        [1, 0] (fun _ _ => none) :=
  c4_fill_order_independent _ _ _ _ _ _ (List.Perm.swap 1 0 []) _

/-- C10: imputation only writes cells that were missing.  Every cell known
before `impute_missing_values` holds exactly its original value afterwards,
and a table with no missing value at all is returned unchanged. -/
theorem c10_imputation_frame_effect :
    (∀ (T : ACSTable) (geo : ℕ → List ℕ) (w : ℕ → ℕ → List ℕ)
        (counties : List ℕ) (t c : ℕ) (x : ℝ), T.val t c = some x →
        (imputeMissingValues T geo w counties).val t c = some x) ∧
    (∀ (T : ACSTable) (geo : ℕ → List ℕ) (w : ℕ → ℕ → List ℕ)
        (counties : List ℕ),
        (∀ t ∈ T.tracts, ∀ c ∈ T.cols, (T.val t c).isSome) →
        imputeMissingValues T geo w counties = T) := by
  constructor
  · intro T geo w counties t c x h
    exact impute_preserves_some h
  · intro T geo w counties hfull
    have hfind : findnaCols T = [] := by
      apply List.filter_eq_nil_iff.mpr
      intro c hc
      simp only [List.any_eq_true]
      intro hcon
      obtain ⟨t, ht, hnone⟩ := hcon
      have := hfull t ht c hc
      simp [Option.isNone_iff_eq_none.mp hnone] at this
    have hfill : ∀ geo1 w1 co, fillna T geo1 w1 co = T := by
      intro geo1 w1 co
      show ({ T with
        val := (findnaCols T).foldl _ T.val } : ACSTable) = T
      rw [hfind]
      rfl
    induction counties with
    | nil => rfl
    | cons co rest ih =>
      show imputeMissingValues (fillna T (geo co) (w co) co) geo w rest = T
      rw [hfill]
      exact ih

/-- Witness for C10: a known cell (value `3`) survives imputation, and a
fully known one-tract table comes back unchanged. -/
theorem c10_imputation_frame_effect_witness :
    (imputeMissingValues
        ⟨[0, 1], fun _ => 0, [0],
          fun t c => if t = 0 ∧ c = 0 then some 3 else none⟩
        (fun _ => [0, 1]) (fun _ _ => []) [0]).val 0 0 = some 3 ∧
    imputeMissingValues ⟨[0], fun _ => 0, [0], fun _ _ => some 1⟩
        (fun _ => [0]) (fun _ _ => []) [0] =
      ⟨[0], fun _ => 0, [0], fun _ _ => some 1⟩ :=
  ⟨c10_imputation_frame_effect.1 _ _ _ _ _ _ _ rfl,
   c10_imputation_frame_effect.2 _ _ _ _ (by intro t _ c _; rfl)⟩

/-- C3: a tract of the county GeoDataFrame missing a column is imputed with
the geometric mean of its neighbours' known values when at least one
neighbour has a known (here positive) value, and otherwise with the median
of the column restricted to the tract's county merge. -/
theorem c3_impute_gmean_or_county_median (T : ACSTable) (geo : List ℕ)
    (w : ℕ → List ℕ) (co t c : ℕ) (ht : t ∈ mergeIndex T geo co)
    (hmiss : T.val t c = none) (hc : c ∈ T.cols) :
    (((w t).map (fun u => T.val u c)).filterMap id ≠ [] →
      (∀ x ∈ ((w t).map (fun u => T.val u c)).filterMap id, (0:ℝ) < x) →
      (fillna T geo w co).val t c =
        some ((((w t).map (fun u => T.val u c)).filterMap id).prod ^
          (((((w t).map (fun u => T.val u c)).filterMap id).length : ℝ))⁻¹)) ∧
    (((w t).map (fun u => T.val u c)).filterMap id = [] →
      (fillna T geo w co).val t c =
        medianOpt (colKnown T.val (mergeIndex T geo co) c)) := by
  have htr : t ∈ T.tracts := (List.mem_filter.mp ht).1
  have hfind : c ∈ findnaCols T := by
    apply List.mem_filter.mpr
    refine ⟨hc, ?_⟩
    simp only [List.any_eq_true]
    exact ⟨t, htr, by simp [hmiss]⟩
  have hval : (fillna T geo w co).val t c =
      getGmeanFromNeighbors T.val (mergeIndex T geo co) w t c := by
    rw [fillna_val]
    simp [hfind, ht, hmiss]
  constructor
  · intro hne hpos
    rw [hval]
    unfold getGmeanFromNeighbors
    rw [if_neg (by simpa [List.isEmpty_iff] using hne)]
    unfold scipyGmean
    rw [if_neg, if_neg]
    · rintro ⟨x, hx, hx0⟩
      exact absurd hx0 (ne_of_gt (hpos x hx))
    · rintro ⟨x, hx, hx0⟩
      exact absurd hx0 (not_lt_of_gt (hpos x hx))
  · intro hemp
    rw [hval]
    unfold getGmeanFromNeighbors
    rw [if_pos (by simp [hemp])]

/-- Witness for C3: tract `0` misses column `0`, its neighbours `1` and `2`
hold `4` and `9`; the imputed value is the geometric mean `6`. -/
theorem c3_impute_gmean_or_county_median_witness :
    (fillna
        ⟨[0, 1, 2], fun _ => 0, [0],
          fun t _ => if t = 1 then some 4 else if t = 2 then some 9
                     else none⟩
        [0, 1, 2] (fun t => if t = 0 then [1, 2] else []) 0).val 0 0 =
      some 6 := by
  have h := (c3_impute_gmean_or_county_median
    ⟨[0, 1, 2], fun _ => 0, [0],
      fun t _ => if t = 1 then some 4 else if t = 2 then some 9 else none⟩
    [0, 1, 2] (fun t => if t = 0 then [1, 2] else []) 0 0 0
    (by decide) rfl (by decide)).1 (by decide)
    (by
      intro x hx
      have hx2 : x = 4 ∨ x = 9 := by simpa using hx
      rcases hx2 with rfl | rfl
      · norm_num
      · norm_num)
  rw [h]
  have hlen : (([some 4, some 9].filterMap id : List ℝ)).length = 2 := rfl
  have hprod : (([some 4, some 9].filterMap id : List ℝ)).prod = 36 := by
    show ((4:ℝ) * (9 * 1)) = 36
    norm_num
  show some ((([some (4:ℝ), some 9].filterMap id).prod) ^
      (((([some (4:ℝ), some 9].filterMap id).length : ℕ) : ℝ))⁻¹) = some 6
  rw [hprod, hlen]
  congr 1
  rw [show (36:ℝ) = 6 ^ ((2:ℕ):ℝ) by rw [Real.rpow_natCast]; norm_num,
    ← Real.rpow_mul (by norm_num : (0:ℝ) ≤ 6),
    mul_inv_cancel₀ (by norm_num : (((2:ℕ):ℝ)) ≠ 0)]
  exact Real.rpow_one 6

/-! ### Claim C1: coverage of the imputation -/

/-- All known cells of a value table are nonnegative (true of the ACS
variables: incomes, housing values/costs and percentages). -/
def NonnegVal (v : ℕ → ℕ → Option ℝ) : Prop :=
  ∀ t c x, v t c = some x → 0 ≤ x

theorem scipyGmean_some_of_nonneg {xs : List ℝ} (h : ∀ x ∈ xs, 0 ≤ x) :
    ∃ y, scipyGmean xs = some y ∧ 0 ≤ y := by
  unfold scipyGmean
  rw [if_neg]
  · by_cases h0 : ∃ x ∈ xs, x = 0
    · exact ⟨0, by rw [if_pos h0], le_refl 0⟩
    · refine ⟨_, by rw [if_neg h0], ?_⟩
      exact Real.rpow_nonneg (List.prod_nonneg h) _
  · rintro ⟨x, hx, hx0⟩
    exact absurd hx0 (not_lt_of_ge (h x hx))

theorem medianOpt_some_of_ne_nil {ks : List ℝ} (h : ks ≠ []) :
    medianOpt ks = some (medianList ks) := by
  unfold medianOpt
  rw [if_neg (by simpa [List.isEmpty_iff] using h)]

/-- Every value `get_gmean_from_neighbors` can write is either NaN or a
nonnegative number, provided the snapshot holds only nonnegative values. -/
theorem getGmean_nonneg {snap : ℕ → ℕ → Option ℝ} {dfIdx : List ℕ}
    {w : ℕ → List ℕ} {t c : ℕ} {y : ℝ} (hnn : NonnegVal snap)
    (h : getGmeanFromNeighbors snap dfIdx w t c = some y) : 0 ≤ y := by
  unfold getGmeanFromNeighbors at h
  by_cases hemp : (((w t).map (fun u => snap u c)).filterMap id).isEmpty
  · rw [if_pos hemp] at h
    unfold medianOpt at h
    by_cases hk : (colKnown snap dfIdx c).isEmpty
    · rw [if_pos hk] at h
      exact absurd h (by simp)
    · rw [if_neg hk] at h
      have hy : y = medianList (colKnown snap dfIdx c) := by
        simpa using h.symm
      rw [hy]
      apply medianList_nonneg
      intro x hx
      obtain ⟨u, _, hu⟩ := List.mem_filterMap.mp hx
      exact hnn u c x hu
  · rw [if_neg hemp] at h
    have hmem : ∀ x ∈ ((w t).map (fun u => snap u c)).filterMap id, 0 ≤ x := by
      intro x hx
      obtain ⟨o, ho, hox⟩ := List.mem_filterMap.mp hx
      obtain ⟨u, _, hu⟩ := List.mem_map.mp ho
      exact hnn u c x (by rw [hu]; simpa using hox)
    obtain ⟨z, hz, hz0⟩ := scipyGmean_some_of_nonneg hmem
    rw [hz] at h
    rw [← Option.some_inj.mp h]
    exact hz0

/-- The call `fillna` keeps every known value nonnegative. -/
theorem fillna_nonneg {T : ACSTable} {geo : List ℕ} {w : ℕ → List ℕ}
    {co : ℕ} (hnn : NonnegVal T.val) : NonnegVal (fillna T geo w co).val := by
  intro t c x h
  rw [fillna_val] at h
  by_cases hcond : c ∈ findnaCols T ∧ t ∈ mergeIndex T geo co ∧
      T.val t c = none
  · rw [if_pos hcond] at h
    exact getGmean_nonneg hnn h
  · rw [if_neg hcond] at h
    exact hnn t c x h

/-- If the county GeoDataFrame has at least one known value in a column,
`fillna` fills every NaN cell of that column for the county's tracts with
an actual number (all snapshot values nonnegative, so the geometric mean
never produces NaN). -/
theorem fillna_fills {T : ACSTable} {geo : List ℕ} {w : ℕ → List ℕ}
    {co t c : ℕ} (hnn : NonnegVal T.val) (ht : t ∈ mergeIndex T geo co)
    (hc : c ∈ T.cols) (hmiss : T.val t c = none)
    (hknown : colKnown T.val (mergeIndex T geo co) c ≠ []) :
    ∃ y, (fillna T geo w co).val t c = some y := by
  have htr : t ∈ T.tracts := (List.mem_filter.mp ht).1
  have hfind : c ∈ findnaCols T :=
    List.mem_filter.mpr ⟨hc, by
      simp only [List.any_eq_true]
      exact ⟨t, htr, by simp [hmiss]⟩⟩
  rw [fillna_val, if_pos ⟨hfind, ht, hmiss⟩]
  unfold getGmeanFromNeighbors
  by_cases hemp : (((w t).map (fun u => T.val u c)).filterMap id).isEmpty
  · rw [if_pos hemp, medianOpt_some_of_ne_nil hknown]
    exact ⟨_, rfl⟩
  · rw [if_neg hemp]
    have hmem : ∀ x ∈ ((w t).map (fun u => T.val u c)).filterMap id,
        0 ≤ x := by
      intro x hx
      obtain ⟨o, ho, hox⟩ := List.mem_filterMap.mp hx
      obtain ⟨u, _, hu⟩ := List.mem_map.mp ho
      exact hnn u c x (by rw [hu]; simpa using hox)
    obtain ⟨z, hz, _⟩ := scipyGmean_some_of_nonneg hmem
    exact ⟨z, hz⟩

/-- C1 (counterexample to the claim as stated): column `0` has a known
value at tract `0` (county `0`), but tract `1` — the only tract of county
`1`, with no neighbours and no known value of the column anywhere in its
county — is still missing after `impute_missing_values` completes: the
county-median fallback of an all-NaN county column writes NaN.  The claim's
"known value at some tract anywhere" scope is therefore too wide. -/
theorem c1_counterexample :
    (imputeMissingValues
        ⟨[0, 1], fun t => t, [0], fun t _ => if t = 0 then some 1 else none⟩
        (fun _ => [0, 1]) (fun _ _ => []) [0, 1]).val 0 0 = some 1 ∧
    (imputeMissingValues
        ⟨[0, 1], fun t => t, [0], fun t _ => if t = 0 then some 1 else none⟩
        (fun _ => [0, 1]) (fun _ _ => []) [0, 1]).val 1 0 = none :=
  ⟨rfl, rfl⟩

/-- C1 (amended): after `impute_missing_values` over a list of configured
counties, a tract belonging to the geometry merge of a configured county
has no missing value in any column for which some tract of that *same
county merge* has a known value, provided all known values in the table
are nonnegative.  (Tracts outside every configured county merge are not
imputed at all, and a column with no known value within the county is
filled with NaN, so the original claim's "known anywhere" scope fails.) -/
theorem c1_amended_county_coverage (geo : ℕ → List ℕ)
    (w : ℕ → ℕ → List ℕ) (counties : List ℕ) (T : ACSTable) (co t c : ℕ)
    (hnn : NonnegVal T.val) (hco : co ∈ counties)
    (ht : t ∈ mergeIndex T (geo co) co) (hc : c ∈ T.cols)
    (hkn : ∃ u ∈ mergeIndex T (geo co) co, (T.val u c).isSome) :
    ((imputeMissingValues T geo w counties).val t c).isSome := by
  induction counties generalizing T with
  | nil => cases hco
  | cons co1 rest ih =>
    have hfields : mergeIndex (fillna T (geo co1) (w co1) co1) (geo co) co =
        mergeIndex T (geo co) co := rfl
    have hcols : (fillna T (geo co1) (w co1) co1).cols = T.cols := rfl
    show ((imputeMissingValues (fillna T (geo co1) (w co1) co1) geo w
        rest).val t c).isSome
    rcases List.mem_cons.mp hco with hcoeq | hcorest
    · subst hcoeq
      by_cases hmiss : T.val t c = none
      · have hknown : colKnown T.val (mergeIndex T (geo co) co) c ≠ [] := by
          obtain ⟨u, hu, hus⟩ := hkn
          obtain ⟨x, hx⟩ := Option.isSome_iff_exists.mp hus
          intro hnil
          have : x ∈ colKnown T.val (mergeIndex T (geo co) co) c :=
            List.mem_filterMap.mpr ⟨u, hu, hx⟩
          rw [hnil] at this
          cases this
        obtain ⟨y, hy⟩ := fillna_fills hnn ht hc hmiss hknown
        rw [impute_preserves_some hy]
        rfl
      · obtain ⟨x, hx⟩ := Option.ne_none_iff_exists.mp hmiss
        rw [impute_preserves_some (fillna_preserves_some hx.symm)]
        rfl
    · apply ih (fillna T (geo co1) (w co1) co1) (fillna_nonneg hnn) hcorest
      · rw [hfields]
        exact ht
      · rw [hcols]
        exact hc
      · obtain ⟨u, hu, hus⟩ := hkn
        obtain ⟨x, hx⟩ := Option.isSome_iff_exists.mp hus
        refine ⟨u, by rw [hfields]; exact hu, ?_⟩
        rw [fillna_preserves_some hx]
        rfl

/-- Witness for C1 (amended): a tract with a known-valued neighbour in its
county gets filled; at the end its cell is non-NaN. -/
theorem c1_amended_county_coverage_witness :
    ((imputeMissingValues
        ⟨[0, 1], fun _ => 0, [0], fun t _ => if t = 0 then some 1 else none⟩
        (fun _ => [0, 1]) (fun _ _ => [0]) [0]).val 1 0).isSome := by
  apply c1_amended_county_coverage (fun _ => [0, 1]) (fun _ _ => [0]) [0]
    ⟨[0, 1], fun _ => 0, [0], fun t _ => if t = 0 then some 1 else none⟩
    0 1 0
  · intro t c x h
    by_cases ht : t = 0
    · subst ht
      simp at h
      rw [← h]
      norm_num
    · simp [ht] at h
  · decide
  · decide
  · decide
  · exact ⟨0, by decide, rfl⟩

/-! ## `do_pca` precondition checks (`pca/pca_analysis.py`) -/

/-- A numpy float64 entry of the stacked matrix, as far as the
`do_pca` precondition checks are concerned: a finite number, an infinity,
or NaN. -/
inductive NPEntry where
  | num (q : ℚ)
  | posInf
  | negInf
  | nan
deriving DecidableEq

/-- Embeds `numpy.isfinite` on one entry. -/
def npIsFinite : NPEntry → Bool
  | NPEntry.num _ => true
  | _ => false

/-- Embeds `numpy.isnan` on one entry. -/
def npIsNan : NPEntry → Bool
  | NPEntry.nan => true
  | _ => false

/-- The two asserts guarding `do_pca`, exactly as written in the source:
`assert np.isfinite(array).any()` — note `.any()`, i.e. the run proceeds
as soon as *some* entry is finite — and `assert ~np.isnan(array).any()`,
i.e. no entry may be NaN.  `true` means both asserts pass and the run
goes on to fit the `RobustScaler` and the PCA. -/
def doPcaChecksPass (array : List (List NPEntry)) : Bool :=
  (array.any (fun row => row.any npIsFinite)) &&
    !(array.any (fun row => row.any npIsNan))

/-- The stacked matrix contains a non-finite or missing entry. -/
def containsNonFinite (array : List (List NPEntry)) : Bool :=
  array.any (fun row => row.any (fun e => !npIsFinite e))

/-- C2 (code bug): a stacked matrix holding an infinity next to finite
entries passes both asserts of `do_pca`, so the run proceeds to fit the
scaler and the projection even though the matrix contains a non-finite
value.  The first assert tests `np.isfinite(array).any()` — "some entry is
finite" — where its own error message ("array contains infinite values")
and the spec demand `np.isfinite(array).all()`.  (A NaN anywhere is
correctly rejected by the second assert; the bug is confined to
infinities.) -/
theorem c2_dopca_accepts_infinite_entry :
    containsNonFinite
        [[NPEntry.posInf, NPEntry.num 1], [NPEntry.num 2, NPEntry.num 3]]
      = true ∧
    doPcaChecksPass
        [[NPEntry.posInf, NPEntry.num 1], [NPEntry.num 2, NPEntry.num 3]]
      = true := by
  decide

/-! ## Rank/ascent engine (`compute_rank_ascent`, `pca/pca_analysis.py`)

Scores are idealised as rationals; `pandas.Series.rank` only compares and
averages them, so the arithmetic is exact. -/

/-- Number of entries of `xs` strictly greater than `x`. -/
def cntGT (xs : List ℚ) (x : ℚ) : ℕ := xs.countP (fun y => decide (x < y))

/-- Number of entries of `xs` equal to `x`. -/
def cntEQ (xs : List ℚ) (x : ℚ) : ℕ := xs.countP (fun y => decide (y = x))

/-- Descending sort, as `pandas.Series.rank(ascending=False)` performs
before assigning positions. -/
def sortQDesc (xs : List ℚ) : List ℚ :=
  xs.mergeSort (fun a b => decide (b ≤ a))

/-- Sum of the 1-based positions (the first one counting as `k`) at which
the value `x` occurs in a list. -/
def posSum (x : ℚ) : List ℚ → ℚ → ℚ
  | [], _ => 0
  | a :: t, k => (if a = x then k else 0) + posSum x t (k + 1)

/-- Embeds `pandas.Series.rank(ascending=False, method='average')` (the
source's
`df[...].rank(ascending=False)` — `'average'` is the pandas default): sort
the entries descending, give them ordinal positions `1..n`, and assign
each entry the average of the positions of its group of ties. -/
def pandasRankDesc (xs : List ℚ) : List ℚ :=
  xs.map (fun x => posSum x (sortQDesc xs) 1 / (cntEQ xs x : ℚ))

/-- The record returned by `compute_rank_ascent` (the score/rank half; the
`inp` half carries the untouched input columns).  Entries are positional,
aligned with the input score lists. -/
structure RankAscent where
  rank_pre : List ℚ
  rank_post : List ℚ
  scores_asc : List ℚ
  scores_pr_pre : List ℚ
  scores_pr_post : List ℚ
  scores_pr_asc : List ℚ

/-- Embeds `compute_rank_ascent(df)`: ranks are descending average ranks
of the
scores; `scores_asc` is `scores_post - scores_pre`; each percentile-rank
column is the descending percentage rank (`pct=True`, i.e. rank divided by
the number of entries) of the *rank* column, times 100; `scores_pr_asc`
is their difference. -/
def computeRankAscent (pre post : List ℚ) : RankAscent :=
  let rp := pandasRankDesc pre
  let rq := pandasRankDesc post
  let prp := (pandasRankDesc rp).map (fun r => r / (rp.length : ℚ) * 100)
  let prq := (pandasRankDesc rq).map (fun r => r / (rq.length : ℚ) * 100)
  { rank_pre := rp
    rank_post := rq
    scores_asc := List.zipWith (fun a b => a - b) post pre
    scores_pr_pre := prp
    scores_pr_post := prq
    scores_pr_asc := List.zipWith (fun a b => a - b) prq prp }

/-- Dense descending rank, modelled from the spec's words: the highest
score gets rank 1 and each subsequent distinct value one more (number of
distinct values strictly greater, plus one). -/
def denseRankDesc (xs : List ℚ) : List ℚ :=
  xs.map (fun x => (xs.dedup.countP (fun y => decide (x < y)) : ℚ) + 1)

/-- The closed form of the average descending rank of `x` within `xs`:
the entries strictly greater than `x` fill the positions before `x`'s tied
group, so the group's average position is `cntGT + (cntEQ + 1) / 2`. -/
def rankValDesc (xs : List ℚ) (x : ℚ) : ℚ :=
  (cntGT xs x : ℚ) + ((cntEQ xs x : ℚ) + 1) / 2

theorem sortQDesc_pairwise (xs : List ℚ) :
    (sortQDesc xs).Pairwise (fun a b : ℚ => b ≤ a) := by
  have h := @List.sorted_mergeSort ℚ (fun a b => decide (b ≤ a))
    (fun a b c hab hbc => by
      simp only [decide_eq_true_eq] at *
      exact le_trans hbc hab)
    (fun a b => by
      rcases le_total b a with h | h
      · simp [h]
      · simp [h])
    xs
  exact h.imp (fun hab => by simpa using hab)

theorem sortQDesc_perm (xs : List ℚ) : List.Perm (sortQDesc xs) xs :=
  List.mergeSort_perm xs _

/-- In a descending-sorted list, the occurrences of `x` sit in one
contiguous block just after the entries greater than `x`; summing their
positions (starting at `k`) gives the closed form below. -/
theorem posSum_sorted (x : ℚ) :
    ∀ (s : List ℚ), s.Pairwise (fun a b : ℚ => b ≤ a) → ∀ k : ℚ,
      posSum x s k =
        (cntEQ s x : ℚ) * (k + (cntGT s x : ℚ)) +
          (cntEQ s x : ℚ) * ((cntEQ s x : ℚ) - 1) / 2 := by
  intro s
  induction s with
  | nil =>
    intro _ k
    simp [posSum, cntEQ, cntGT]
  | cons a t ih =>
    intro hpair k
    have hhead : ∀ b ∈ t, b ≤ a := fun b hb =>
      (List.pairwise_cons.mp hpair).1 b hb
    have htail : t.Pairwise (fun a b : ℚ => b ≤ a) :=
      (List.pairwise_cons.mp hpair).2
    have hEQ : cntEQ (a :: t) x = cntEQ t x + (if a = x then 1 else 0) := by
      simp [cntEQ, List.countP_cons]
    have hGT : cntGT (a :: t) x = cntGT t x + (if x < a then 1 else 0) := by
      simp [cntGT, List.countP_cons]
    rcases lt_trichotomy x a with hxa | hxa | hxa
    · have hne : ¬(a = x) := fun h => absurd (h ▸ hxa) (lt_irrefl x)
      rw [show posSum x (a :: t) k = posSum x t (k + 1) by
        simp [posSum, hne]]
      rw [ih htail (k + 1), hEQ, hGT]
      simp only [hne, hxa, if_true, if_false]
      push_cast
      ring
    · subst hxa
      have hgt0 : cntGT t x = 0 := by
        simp only [cntGT, List.countP_eq_zero]
        intro b hb
        simpa using not_lt_of_ge (hhead b hb)
      rw [show posSum x (x :: t) k = k + posSum x t (k + 1) by
        simp [posSum]]
      rw [ih htail (k + 1), hEQ, hGT, hgt0]
      simp only [if_true, lt_irrefl, if_false]
      push_cast
      ring
    · have hne : ¬(a = x) := fun h => absurd (h ▸ hxa) (lt_irrefl a)
      have heq0 : cntEQ t x = 0 := by
        simp only [cntEQ, List.countP_eq_zero]
        intro b hb
        have hba : b ≤ a := hhead b hb
        have : b < x := lt_of_le_of_lt hba hxa
        simpa using ne_of_lt this
      rw [show posSum x (a :: t) k = posSum x t (k + 1) by
        simp [posSum, hne]]
      rw [ih htail (k + 1), hEQ, hGT, heq0]
      simp only [hne, if_false, not_lt_of_gt hxa]
      push_cast
      ring

/-- The average descending rank computed from sort positions coincides
with the counting closed form `cntGT + (cntEQ + 1) / 2`. -/
theorem pandasRankDesc_eq_rankVal (xs : List ℚ) :
    pandasRankDesc xs = xs.map (rankValDesc xs) := by
  unfold pandasRankDesc
  apply List.map_congr_left
  intro x hx
  have hperm := sortQDesc_perm xs
  have hEQ : cntEQ (sortQDesc xs) x = cntEQ xs x :=
    List.Perm.countP_eq _ hperm
  have hGT : cntGT (sortQDesc xs) x = cntGT xs x :=
    List.Perm.countP_eq _ hperm
  have hpos : 0 < cntEQ xs x :=
    List.countP_pos_iff.mpr ⟨x, hx, by simp⟩
  have hne : (cntEQ xs x : ℚ) ≠ 0 :=
    Nat.cast_ne_zero.mpr (Nat.pos_iff_ne_zero.mp hpos)
  rw [posSum_sorted x (sortQDesc xs) (sortQDesc_pairwise xs) 1, hEQ, hGT]
  unfold rankValDesc
  field_simp
  ring

/-- Two disjoint counts, each implying a third predicate, add up to at
most the third predicate's count. -/
theorem countP_add_countP_le {α : Type} (p q r : α → Bool) (l : List α)
    (hpq : ∀ y ∈ l, p y = true → q y = false)
    (hpr : ∀ y ∈ l, p y = true → r y = true)
    (hqr : ∀ y ∈ l, q y = true → r y = true) :
    l.countP p + l.countP q ≤ l.countP r := by
  induction l with
  | nil => simp
  | cons a t ih =>
    have ih2 := ih (fun y hy => hpq y (List.mem_cons_of_mem a hy))
      (fun y hy => hpr y (List.mem_cons_of_mem a hy))
      (fun y hy => hqr y (List.mem_cons_of_mem a hy))
    rw [List.countP_cons, List.countP_cons, List.countP_cons]
    have hmema : a ∈ a :: t := List.mem_cons_self a t
    by_cases hp : p a = true
    · have hq := hpq a hmema hp
      have hr := hpr a hmema hp
      simp only [hp, hq, hr, Bool.false_eq_true, if_true, if_false]
      omega
    · by_cases hq : q a = true
      · have hr := hqr a hmema hq
        simp only [eq_false_of_ne_true hp, hq, hr, Bool.false_eq_true,
          if_true, if_false]
        omega
      · simp only [eq_false_of_ne_true hp, eq_false_of_ne_true hq,
          Bool.false_eq_true, if_false]
        by_cases hr : r a = true
        · simp only [hr, if_true]
          omega
        · simp only [eq_false_of_ne_true hr, Bool.false_eq_true, if_false]
          omega

/-- An entry with average descending rank `1` is a maximum. -/
theorem rankVal_eq_one_max {xs : List ℚ} {x : ℚ} (hx : x ∈ xs)
    (h : rankValDesc xs x = 1) : ∀ z ∈ xs, z ≤ x := by
  have hpos : 0 < cntEQ xs x :=
    List.countP_pos_iff.mpr ⟨x, hx, by simp⟩
  have hg : cntGT xs x = 0 := by
    by_contra hg0
    have hg1 : 1 ≤ cntGT xs x := Nat.pos_of_ne_zero hg0
    unfold rankValDesc at h
    have h1 : (1:ℚ) ≤ (cntGT xs x : ℚ) := by exact_mod_cast hg1
    have h2 : (1:ℚ) ≤ (cntEQ xs x : ℚ) := by exact_mod_cast hpos
    nlinarith
  intro z hz
  by_contra hlt
  push_neg at hlt
  have : cntGT xs x ≠ 0 := by
    unfold cntGT
    intro h0
    exact absurd (decide_eq_true hlt)
      (by simpa using List.countP_eq_zero.mp h0 z hz)
  exact this hg

/-- Strict antitonicity of the second-level rank: among the entries of a
list, a strictly larger value has a strictly smaller average descending
rank. -/
theorem rankVal_lt_of_gt {xs : List ℚ} {a b : ℚ} (ha : a ∈ xs)
    (hab : b < a) : rankValDesc xs a < rankValDesc xs b := by
  have hea : 0 < cntEQ xs a :=
    List.countP_pos_iff.mpr ⟨a, ha, by simp⟩
  have hkey : cntGT xs a + cntEQ xs a ≤ cntGT xs b := by
    apply countP_add_countP_le
    · intro y _ hy
      simp only [decide_eq_true_eq] at hy
      simp [ne_of_gt hy]
    · intro y _ hy
      simp only [decide_eq_true_eq] at hy
      simp [lt_trans hab hy]
    · intro y _ hy
      simp only [decide_eq_true_eq] at hy
      simp [hy ▸ hab]
  unfold rankValDesc
  have h1 : (cntGT xs a : ℚ) + (cntEQ xs a : ℚ) ≤ (cntGT xs b : ℚ) := by
    exact_mod_cast hkey
  have h2 : (1:ℚ) ≤ (cntEQ xs a : ℚ) := by exact_mod_cast hea
  have h3 : (0:ℚ) ≤ (cntEQ xs b : ℚ) := by positivity
  nlinarith

/-- Any entry's average descending rank lies between `1` and the length
of the list. -/
theorem rankVal_bounds {xs : List ℚ} {x : ℚ} (hx : x ∈ xs) :
    1 ≤ rankValDesc xs x ∧ rankValDesc xs x ≤ (xs.length : ℚ) := by
  have hpos : 0 < cntEQ xs x :=
    List.countP_pos_iff.mpr ⟨x, hx, by simp⟩
  have hlen : cntGT xs x + cntEQ xs x ≤ xs.length := by
    have := countP_add_countP_le (fun y => decide (x < y))
      (fun y => decide (y = x)) (fun _ => true) xs
      (fun y _ hy => by
        simp only [decide_eq_true_eq] at hy
        simp [ne_of_gt hy])
      (fun y _ _ => rfl) (fun y _ _ => rfl)
    simpa [cntGT, cntEQ] using this
  have h1 : (1:ℚ) ≤ (cntEQ xs x : ℚ) := by exact_mod_cast hpos
  have h2 : (cntGT xs x : ℚ) + (cntEQ xs x : ℚ) ≤ (xs.length : ℚ) := by
    exact_mod_cast hlen
  have h3 : (0:ℚ) ≤ (cntGT xs x : ℚ) := by positivity
  constructor
  · unfold rankValDesc
    linarith
  · unfold rankValDesc
    linarith

theorem pandasRankDesc_getD {xs : List ℚ} {i : ℕ} (hi : i < xs.length) :
    (pandasRankDesc xs).getD i 0 = rankValDesc xs (xs.getD i 0) := by
  rw [pandasRankDesc_eq_rankVal,
    List.getD_eq_getElem _ _ (by simpa using hi), List.getElem_map,
    List.getD_eq_getElem _ _ hi]

theorem pandasRankDesc_getD_mem {xs : List ℚ} {i : ℕ}
    (hi : i < xs.length) :
    (pandasRankDesc xs).getD i 0 ∈ pandasRankDesc xs := by
  rw [List.getD_eq_getElem _ _ (by simpa [pandasRankDesc] using hi)]
  exact List.getElem_mem _

/-- C5 (counterexample to "dense rank"): on the tied scores `[5, 5, 3]`
`compute_rank_ascent` assigns the pandas `'average'` descending ranks
`[1.5, 1.5, 3]`, not the dense descending ranks `[1, 1, 2]` the claim
describes. -/
theorem c5_counterexample :
    (computeRankAscent [5, 5, 3] [5, 5, 3]).rank_pre ≠
      denseRankDesc [5, 5, 3] := by
  intro hcon
  have h1 : (pandasRankDesc [5, 5, 3]).getD 2 0 =
      (denseRankDesc [5, 5, 3]).getD 2 0 := by
    have hfield : (computeRankAscent [5, 5, 3] [5, 5, 3]).rank_pre =
        pandasRankDesc [5, 5, 3] := rfl
    rw [← hfield, hcon]
  rw [pandasRankDesc_getD (by norm_num)] at h1
  have h3 : ([5, 5, 3] : List ℚ).getD 2 0 = 3 := rfl
  rw [h3] at h1
  unfold rankValDesc at h1
  rw [show cntGT [5, 5, 3] 3 = 2 from by decide,
    show cntEQ [5, 5, 3] 3 = 1 from by decide] at h1
  have h4 : (denseRankDesc [5, 5, 3]).getD 2 0 =
      ((1:ℕ) : ℚ) + 1 := rfl
  rw [h4] at h1
  push_cast at h1
  norm_num at h1

/-- C5 (amended): per period, `compute_rank_ascent` assigns each tract the
*average* (pandas method `'average'`, the mean of the 1-based descending
sort positions of its tied group, in closed form `cntGT + (cntEQ + 1)/2`)
rank of its score taken descending — not the dense rank — and assigns
percentile rank as the descending percentage rank of that rank column (not
of the raw score) times 100, a value in `(0, 100]`. -/
theorem c5_rank_average_and_percentile_of_rank (pre post : List ℚ) :
    (computeRankAscent pre post).rank_pre = pre.map (rankValDesc pre) ∧
    (computeRankAscent pre post).rank_post = post.map (rankValDesc post) ∧
    (computeRankAscent pre post).scores_pr_pre =
      (pandasRankDesc (pandasRankDesc pre)).map
        (fun r => r / ((pandasRankDesc pre).length : ℚ) * 100) ∧
    (computeRankAscent pre post).scores_pr_post =
      (pandasRankDesc (pandasRankDesc post)).map
        (fun r => r / ((pandasRankDesc post).length : ℚ) * 100) ∧
    (∀ v ∈ (computeRankAscent pre post).scores_pr_pre, 0 < v ∧ v ≤ 100) ∧
    (∀ v ∈ (computeRankAscent pre post).scores_pr_post, 0 < v ∧ v ≤ 100) := by
  have bounds : ∀ xs : List ℚ,
      ∀ v ∈ (pandasRankDesc (pandasRankDesc xs)).map
        (fun r => r / ((pandasRankDesc xs).length : ℚ) * 100),
      0 < v ∧ v ≤ 100 := by
    intro xs v hv
    obtain ⟨r, hr, rfl⟩ := List.mem_map.mp hv
    rw [pandasRankDesc_eq_rankVal (pandasRankDesc xs)] at hr
    obtain ⟨r0, hr0, rfl⟩ := List.mem_map.mp hr
    obtain ⟨h1, h2⟩ := rankVal_bounds hr0
    have hn : 0 < ((pandasRankDesc xs).length : ℚ) := by
      have : 0 < (pandasRankDesc xs).length :=
        List.length_pos_of_mem hr0
      exact_mod_cast this
    constructor
    · have h0 : 0 < rankValDesc (pandasRankDesc xs) r0 :=
        lt_of_lt_of_le one_pos h1
      positivity
    · have hdiv : rankValDesc (pandasRankDesc xs) r0 /
          ((pandasRankDesc xs).length : ℚ) ≤ 1 :=
        (div_le_one hn).mpr h2
      nlinarith
  exact ⟨pandasRankDesc_eq_rankVal pre, pandasRankDesc_eq_rankVal post,
    rfl, rfl, bounds pre, bounds post⟩

/-- Witness for C5 (amended): concrete average descending ranks for tied
scores. -/
theorem c5_rank_average_and_percentile_of_rank_witness :
    (computeRankAscent [5, 5, 3] [0, 0, 0]).rank_pre =
      [3 / 2, 3 / 2, 3] := by
  rw [(c5_rank_average_and_percentile_of_rank [5, 5, 3] [0, 0, 0]).1]
  show [rankValDesc [5, 5, 3] 5, rankValDesc [5, 5, 3] 5,
    rankValDesc [5, 5, 3] 3] = _
  unfold rankValDesc
  rw [show cntGT [5, 5, 3] (5:ℚ) = 0 from by decide,
    show cntEQ [5, 5, 3] (5:ℚ) = 2 from by decide,
    show cntGT [5, 5, 3] (3:ℚ) = 2 from by decide,
    show cntEQ [5, 5, 3] (3:ℚ) = 1 from by decide]
  norm_num

/-- Single-period content of C6: the entry ranked `1` carries the maximum
score, and the percentile-rank column (percentage rank of the rank column,
descending) is antitone in the rank. -/
theorem rank_pr_period (xs : List ℚ) (i j : ℕ) (hi : i < xs.length)
    (hj : j < xs.length) :
    ((pandasRankDesc xs).getD i 0 = 1 → xs.getD j 0 ≤ xs.getD i 0) ∧
    ((pandasRankDesc xs).getD j 0 ≤ (pandasRankDesc xs).getD i 0 →
      ((pandasRankDesc (pandasRankDesc xs)).map
          (fun r => r / ((pandasRankDesc xs).length : ℚ) * 100)).getD i 0 ≤
        ((pandasRankDesc (pandasRankDesc xs)).map
          (fun r => r / ((pandasRankDesc xs).length : ℚ) * 100)).getD j 0) := by
  have hlen : (pandasRankDesc xs).length = xs.length := by
    simp [pandasRankDesc]
  have hiR : i < (pandasRankDesc xs).length := by rw [hlen]; exact hi
  have hjR : j < (pandasRankDesc xs).length := by rw [hlen]; exact hj
  constructor
  · intro h1
    rw [pandasRankDesc_getD hi] at h1
    have hmem : xs.getD i 0 ∈ xs := by
      rw [List.getD_eq_getElem _ _ hi]
      exact List.getElem_mem _
    apply rankVal_eq_one_max hmem h1
    rw [List.getD_eq_getElem _ _ hj]
    exact List.getElem_mem _
  · intro hle
    have hmap : ∀ (k : ℕ), k < (pandasRankDesc xs).length →
        ((pandasRankDesc (pandasRankDesc xs)).map
            (fun r => r / ((pandasRankDesc xs).length : ℚ) * 100)).getD k 0 =
          rankValDesc (pandasRankDesc xs) ((pandasRankDesc xs).getD k 0) /
            ((pandasRankDesc xs).length : ℚ) * 100 := by
      intro k hk
      have hk2 : k < (pandasRankDesc (pandasRankDesc xs)).length := by
        simpa [pandasRankDesc] using hk
      rw [List.getD_eq_getElem _ _ (by simpa using hk2), List.getElem_map,
        ← List.getD_eq_getElem (pandasRankDesc (pandasRankDesc xs)) 0 hk2,
        pandasRankDesc_getD hk]
    rw [hmap i hiR, hmap j hjR]
    have hmemRi : (pandasRankDesc xs).getD i 0 ∈ pandasRankDesc xs :=
      pandasRankDesc_getD_mem hi
    have hn : (0:ℚ) < ((pandasRankDesc xs).length : ℚ) := by
      have : 0 < (pandasRankDesc xs).length := lt_of_le_of_lt (Nat.zero_le i) hiR
      exact_mod_cast this
    rcases eq_or_lt_of_le hle with heq | hlt
    · rw [heq]
    · have hstrict := rankVal_lt_of_gt hmemRi hlt
      have hdiv : rankValDesc (pandasRankDesc xs) ((pandasRankDesc xs).getD i 0) /
            ((pandasRankDesc xs).length : ℚ) ≤
          rankValDesc (pandasRankDesc xs) ((pandasRankDesc xs).getD j 0) /
            ((pandasRankDesc xs).length : ℚ) := by
        exact (div_le_div_iff_of_pos_right hn).mpr hstrict.le
      exact mul_le_mul_of_nonneg_right hdiv (by norm_num)

/-- C6: per period, the tract ranked `1` has the maximum score, and the
percentile rank is a monotonically non-increasing function of the rank:
of two tracts, the one with the larger rank has a percentile rank no
greater than the other's. -/
theorem c6_rank1_max_percentile_antitone (pre post : List ℚ) (i j : ℕ)
    (hi : i < pre.length) (hj : j < pre.length)
    (hi2 : i < post.length) (hj2 : j < post.length) :
    ((computeRankAscent pre post).rank_pre.getD i 0 = 1 →
      pre.getD j 0 ≤ pre.getD i 0) ∧
    ((computeRankAscent pre post).rank_pre.getD j 0 ≤
        (computeRankAscent pre post).rank_pre.getD i 0 →
      (computeRankAscent pre post).scores_pr_pre.getD i 0 ≤
        (computeRankAscent pre post).scores_pr_pre.getD j 0) ∧
    ((computeRankAscent pre post).rank_post.getD i 0 = 1 →
      post.getD j 0 ≤ post.getD i 0) ∧
    ((computeRankAscent pre post).rank_post.getD j 0 ≤
        (computeRankAscent pre post).rank_post.getD i 0 →
      (computeRankAscent pre post).scores_pr_post.getD i 0 ≤
        (computeRankAscent pre post).scores_pr_post.getD j 0) := by
  have hpre := rank_pr_period pre i j hi hj
  have hpost := rank_pr_period post i j hi2 hj2
  exact ⟨hpre.1, hpre.2, hpost.1, hpost.2⟩

/-- Witness for C6: scores `[3, 1, 2]` — the tract ranked `1` (score `3`)
is the maximum, and a larger rank gives a percentile rank no greater. -/
theorem c6_rank1_max_percentile_antitone_witness :
    (([3, 1, 2] : List ℚ).getD 1 0 ≤ ([3, 1, 2] : List ℚ).getD 0 0) ∧
    ((computeRankAscent [3, 1, 2] [3, 1, 2]).scores_pr_pre.getD 1 0 ≤
      (computeRankAscent [3, 1, 2] [3, 1, 2]).scores_pr_pre.getD 0 0) := by
  have hr0 : (computeRankAscent [3, 1, 2] [3, 1, 2]).rank_pre.getD 0 0
      = 1 := by
    show (pandasRankDesc [3, 1, 2]).getD 0 0 = 1
    rw [pandasRankDesc_getD (by norm_num)]
    show rankValDesc [3, 1, 2] 3 = 1
    unfold rankValDesc
    rw [show cntGT [3, 1, 2] (3:ℚ) = 0 from by decide,
      show cntEQ [3, 1, 2] (3:ℚ) = 1 from by decide]
    norm_num
  have hr1 : (computeRankAscent [3, 1, 2] [3, 1, 2]).rank_pre.getD 1 0
      = 3 := by
    show (pandasRankDesc [3, 1, 2]).getD 1 0 = 3
    rw [pandasRankDesc_getD (by norm_num)]
    show rankValDesc [3, 1, 2] 1 = 3
    unfold rankValDesc
    rw [show cntGT [3, 1, 2] (1:ℚ) = 2 from by decide,
      show cntEQ [3, 1, 2] (1:ℚ) = 1 from by decide]
    norm_num
  constructor
  · exact (c6_rank1_max_percentile_antitone [3, 1, 2] [3, 1, 2] 0 1
      (by norm_num) (by norm_num) (by norm_num) (by norm_num)).1 hr0
  · exact (c6_rank1_max_percentile_antitone [3, 1, 2] [3, 1, 2] 1 0
      (by norm_num) (by norm_num) (by norm_num) (by norm_num)).2.1
      (by rw [hr0, hr1]; norm_num)

/-! ## Transform stage (`transform`, `pca/pca_analysis.py`) -/

open Classical in
/-- Embedding of `scipy.special.boxcox(x, lmbda)` on a positive float `x`:
the value `log x` when
`lmbda = 0`, `(x ^ lmbda - 1) / lmbda` otherwise. -/
noncomputable def boxcoxApply (l : ℝ) (x : ℝ) : ℝ :=
  if l = 0 then Real.log x else (x ^ l - 1) / l

open Classical in
/-- Embeds `scipy.stats.boxcox(x)` with `lmbda=None`: validate the data
(constant
data and non-positive data raise `ValueError`), then fit a
maximum-likelihood lambda and return the transformed data together with
the fitted lambda.  The MLE optimisation itself is kept abstract as the
parameter `fitLambda` — the claims only concern which data the lambda is
fitted on and shared with, never its value. -/
noncomputable def boxcoxFit (fitLambda : List ℝ → ℝ) (xs : List ℝ) :
    Except String (List ℝ × ℝ) :=
  if ∀ x ∈ xs, x = xs.headD 0 then Except.error "Data must not be constant."
  else if ∃ x ∈ xs, x ≤ 0 then Except.error "Data must be positive."
  else Except.ok (xs.map (boxcoxApply (fitLambda xs)), fitLambda xs)

/-- One designated column of the `box_cox` branch of `transform`:
`values1, lmd = boxcox(df1[col])` — fitted on period 1, raising on invalid
period-1 data — then `values2 = boxcox(df2[col], lmbda=lmd)` — the same
fitted lambda applied to period 2 *without any validation*
(`scipy.special.boxcox`). -/
noncomputable def transformBoxCoxCol (fitLambda : List ℝ → ℝ)
    (xs1 xs2 : List ℝ) : Except String (List ℝ × List ℝ) :=
  match boxcoxFit fitLambda xs1 with
  | Except.error e => Except.error e
  | Except.ok (v1, l) => Except.ok (v1, xs2.map (boxcoxApply l))

/-- The `box_cox` branch of `transform(columns, df1, df2)`: left to right
over the designated columns, each replaced by its transformed version
(`col + '_box'`); the first failing column aborts the whole call. -/
noncomputable def transformBoxCox (fitLambda : List ℝ → ℝ)
    (cols : List String) (df1 df2 : String → List ℝ) :
    Except String (List (String × List ℝ × List ℝ)) :=
  cols.mapM (fun c =>
    (transformBoxCoxCol fitLambda (df1 c) (df2 c)).map
      (fun p => (c, p.1, p.2)))

/-- Successful `mapM` over `Except`: every output element is the
successful image of some input element. -/
theorem mapM_ok_mem {α β : Type} (f : α → Except String β) :
    ∀ (cols : List α) (out : List β), cols.mapM f = Except.ok out →
      ∀ p ∈ out, ∃ c ∈ cols, f c = Except.ok p := by
  intro cols
  induction cols with
  | nil =>
    intro out h p hp
    have : out = [] := by
      have h2 : (Except.ok ([] : List β) : Except String (List β)) =
          Except.ok out := h
      cases h2
      rfl
    rw [this] at hp
    cases hp
  | cons c cs ih =>
    intro out h p hp
    rw [List.mapM_cons] at h
    cases hfc : f c with
    | error e =>
      rw [hfc] at h
      cases h
    | ok b =>
      rw [hfc] at h
      cases hrest : cs.mapM f with
      | error e =>
        rw [hrest] at h
        cases h
      | ok bs =>
        rw [hrest] at h
        have hout : out = b :: bs := by cases h; rfl
        rw [hout] at hp
        rcases List.mem_cons.mp hp with hpb | hpbs
        · exact ⟨c, List.mem_cons_self c cs, hpb ▸ hfc⟩
        · obtain ⟨c0, hc0, hfc0⟩ := ih bs hrest p hpbs
          exact ⟨c0, List.mem_cons_of_mem c hc0, hfc0⟩

/-- A `mapM` over `Except` fails as soon as one element fails. -/
theorem mapM_error_of_mem {α β : Type} (f : α → Except String β)
    (cols : List α) (c : α) (hc : c ∈ cols) (e : String)
    (hf : f c = Except.error e) :
    ∃ e1, cols.mapM f = Except.error e1 := by
  induction cols with
  | nil => cases hc
  | cons c0 cs ih =>
    rw [List.mapM_cons]
    rcases List.mem_cons.mp hc with hc0 | hcs
    · subst hc0
      rw [hf]
      exact ⟨e, rfl⟩
    · cases hfc0 : f c0 with
      | error e0 => exact ⟨e0, rfl⟩
      | ok b =>
        obtain ⟨e1, he1⟩ := ih hcs
        rw [he1]
        exact ⟨e1, rfl⟩

/-- C8 (amended): under the `box_cox` policy, whatever lambda-fitting
oracle `scipy` uses, each designated variable gets exactly one lambda,
fitted on period 1's values, and that same lambda is applied to period 2's
values (one shared transform per variable).  The transform fails whenever
a *period-1* value of a designated variable is non-positive; non-positive
*period-2* values do not make it fail (they silently produce invalid
numbers), which is the sole correction to the claim. -/
theorem c8_boxcox_shared_lambda (fitLambda : List ℝ → ℝ)
    (cols : List String) (df1 df2 : String → List ℝ) :
    (∀ out, transformBoxCox fitLambda cols df1 df2 = Except.ok out →
      ∀ c v1 v2, (c, v1, v2) ∈ out →
        v1 = (df1 c).map (boxcoxApply (fitLambda (df1 c))) ∧
        v2 = (df2 c).map (boxcoxApply (fitLambda (df1 c)))) ∧
    (∀ c ∈ cols, (∃ x ∈ df1 c, x ≤ 0) →
      ∃ e, transformBoxCox fitLambda cols df1 df2 = Except.error e) := by
  constructor
  · intro out hout c v1 v2 hmem
    obtain ⟨c0, _, hfc0⟩ := mapM_ok_mem _ cols out hout (c, v1, v2) hmem
    cases hfit : boxcoxFit fitLambda (df1 c0) with
    | error e =>
      unfold transformBoxCoxCol at hfc0
      rw [hfit] at hfc0
      cases hfc0
    | ok p =>
      obtain ⟨pv, pl⟩ := p
      unfold boxcoxFit at hfit
      by_cases hconst : ∀ x ∈ df1 c0, x = (df1 c0).headD 0
      · rw [if_pos hconst] at hfit
        cases hfit
      · rw [if_neg hconst] at hfit
        by_cases hpos : ∃ x ∈ df1 c0, x ≤ 0
        · rw [if_pos hpos] at hfit
          cases hfit
        · rw [if_neg hpos] at hfit
          injection hfit with hfit2
          have hpv : (df1 c0).map (boxcoxApply (fitLambda (df1 c0))) = pv :=
            congrArg Prod.fst hfit2
          have hpl : fitLambda (df1 c0) = pl := congrArg Prod.snd hfit2
          unfold transformBoxCoxCol at hfc0
          rw [show boxcoxFit fitLambda (df1 c0) = Except.ok (pv, pl) from by
            unfold boxcoxFit
            rw [if_neg hconst, if_neg hpos, hpv, hpl]] at hfc0
          have hfc1 : (Except.ok
              (c0, pv, (df2 c0).map (boxcoxApply pl)) :
              Except String (String × List ℝ × List ℝ)) =
              Except.ok (c, v1, v2) := hfc0
          injection hfc1 with hfc2
          have hc : c0 = c := congrArg Prod.fst hfc2
          have hv1 : pv = v1 := congrArg (fun q => q.2.1) hfc2
          have hv2 : (df2 c0).map (boxcoxApply pl) = v2 :=
            congrArg (fun q => q.2.2) hfc2
          subst hc
          constructor
          · rw [← hv1, ← hpv]
          · rw [← hv2, ← hpl]
  · intro c hc hneg
    have hf : ∃ e0, (transformBoxCoxCol fitLambda (df1 c) (df2 c)).map
        (fun p => (c, p.1, p.2)) = Except.error e0 := by
      unfold transformBoxCoxCol boxcoxFit
      by_cases hconst : ∀ x ∈ df1 c, x = (df1 c).headD 0
      · rw [if_pos hconst]
        exact ⟨_, rfl⟩
      · rw [if_neg hconst, if_pos hneg]
        exact ⟨_, rfl⟩
    obtain ⟨e0, he0⟩ := hf
    exact mapM_error_of_mem _ cols c hc e0 he0

/-- Concrete evaluation of the `box_cox` transform: period-1 data `[1, 2]`
(valid), period-2 data `[0, 1]` — containing a non-positive entry — and
the call succeeds. -/
theorem transformBoxCox_example :
    transformBoxCox (fun _ => 1) ["median_hh_inc"]
        (fun _ => [1, 2]) (fun _ => [0, 1]) =
      Except.ok [("median_hh_inc", [boxcoxApply 1 1, boxcoxApply 1 2],
        [boxcoxApply 1 0, boxcoxApply 1 1])] := by
  have hconst : ¬ ∀ x ∈ ([1, 2] : List ℝ), x = ([1, 2] : List ℝ).headD 0 := by
    intro hcon
    have h2 := hcon 2 (by norm_num [List.mem_cons])
    norm_num at h2
  have hpos : ¬ ∃ x ∈ ([1, 2] : List ℝ), x ≤ 0 := by
    rintro ⟨x, hx, hx0⟩
    simp only [List.mem_cons, List.not_mem_nil, or_false] at hx
    rcases hx with rfl | rfl
    · norm_num at hx0
    · norm_num at hx0
  have h1 : boxcoxFit (fun _ => (1:ℝ)) [1, 2] =
      Except.ok ([boxcoxApply 1 1, boxcoxApply 1 2], 1) := by
    unfold boxcoxFit
    rw [if_neg hconst, if_neg hpos]
    rfl
  have h2 : transformBoxCoxCol (fun _ => (1:ℝ)) [1, 2] [0, 1] =
      Except.ok ([boxcoxApply 1 1, boxcoxApply 1 2],
        [boxcoxApply 1 0, boxcoxApply 1 1]) := by
    unfold transformBoxCoxCol
    rw [h1]
    rfl
  simp only [transformBoxCox, List.mapM_cons, List.mapM_nil]
  rw [h2]
  rfl

/-- C8 (counterexample to "fails on any non-positive input"): period 2's
column holds the non-positive value `0`, yet the `box_cox` transform
completes successfully, because `scipy.stats.boxcox(x, lmbda=lmd)` — the
period-2 path — performs no positivity check.  (The lambda-fitting oracle
is irrelevant to the control flow; `fun _ => 1` is used here.) -/
theorem c8_counterexample :
    ((0:ℝ) ∈ ([0, 1] : List ℝ) ∧ (0:ℝ) ≤ 0) ∧
    ∃ out, transformBoxCox (fun _ => 1) ["median_hh_inc"]
        (fun _ => [1, 2]) (fun _ => [0, 1]) = Except.ok out :=
  ⟨⟨by norm_num [List.mem_cons], le_refl 0⟩, ⟨_, transformBoxCox_example⟩⟩

/-- Witness for C8 (amended): the period-2 output column is period 2
mapped through the lambda fitted on period 1, and a non-positive
*period-1* value does make the transform fail. -/
theorem c8_boxcox_shared_lambda_witness :
    ([boxcoxApply 1 0, boxcoxApply 1 1] : List ℝ) =
      ([0, 1] : List ℝ).map (boxcoxApply 1) ∧
    ∃ e, transformBoxCox (fun _ => 1) ["median_hh_inc"]
        (fun _ => [-1, 2]) (fun _ => [0, 1]) = Except.error e := by
  constructor
  · exact ((c8_boxcox_shared_lambda (fun _ => 1) ["median_hh_inc"]
      (fun _ => [1, 2]) (fun _ => [0, 1])).1 _ transformBoxCox_example
      "median_hh_inc" [boxcoxApply 1 1, boxcoxApply 1 2]
      [boxcoxApply 1 0, boxcoxApply 1 1]
      (List.mem_singleton.mpr rfl)).2
  · exact (c8_boxcox_shared_lambda (fun _ => 1) ["median_hh_inc"]
      (fun _ => [-1, 2]) (fun _ => [0, 1])).2 "median_hh_inc"
      (List.mem_singleton.mpr rfl)
      ⟨-1, by norm_num [List.mem_cons], by norm_num⟩

open Classical in
/-- The elementwise map the `in_between` branch of `transform` applies to
a designated column: `median_hh_inc` gets the fixed power `2/3`
(`np.power(df[col], 2.0/3.0)`), every other designated column the natural
log (`np.log(df[col])`).  No parameter of it is fitted from data. -/
noncomputable def inBetweenFn (c : String) : ℝ → ℝ :=
  if c = "median_hh_inc" then fun x => x ^ ((2:ℝ) / 3) else Real.log

/-- The `in_between` branch of `transform(columns, df1, df2)`: every
designated column of both periods is replaced (as `col + '_log'`) by the
same deterministic elementwise map. -/
noncomputable def transformInBetween (cols : List String)
    (df1 df2 : String → List ℝ) : List (String × List ℝ × List ℝ) :=
  cols.map (fun c =>
    (c, (df1 c).map (inBetweenFn c), (df2 c).map (inBetweenFn c)))

/-- C9: under the `power-log` (`in_between`) policy every designated
variable except `median_hh_inc` is mapped elementwise to its natural log,
`median_hh_inc` is mapped elementwise to its value raised to the power
`2/3`, and the identical deterministic function (`inBetweenFn c`, which
takes no fitted parameter — it does not depend on the data at all) is
applied to both periods' columns. -/
theorem c9_power_log_transform (cols : List String)
    (df1 df2 : String → List ℝ) :
    ∀ c v1 v2, (c, v1, v2) ∈ transformInBetween cols df1 df2 →
      (c ≠ "median_hh_inc" →
        v1 = (df1 c).map Real.log ∧ v2 = (df2 c).map Real.log) ∧
      (c = "median_hh_inc" →
        v1 = (df1 c).map (fun x => x ^ ((2:ℝ) / 3)) ∧
        v2 = (df2 c).map (fun x => x ^ ((2:ℝ) / 3))) ∧
      (v1 = (df1 c).map (inBetweenFn c) ∧
        v2 = (df2 c).map (inBetweenFn c)) := by
  intro c v1 v2 hmem
  obtain ⟨c0, _, heq⟩ := List.mem_map.mp hmem
  have hc : c0 = c := congrArg Prod.fst heq
  have hv1 : (df1 c0).map (inBetweenFn c0) = v1 :=
    congrArg (fun q => q.2.1) heq
  have hv2 : (df2 c0).map (inBetweenFn c0) = v2 :=
    congrArg (fun q => q.2.2) heq
  subst hc
  refine ⟨?_, ?_, hv1.symm, hv2.symm⟩
  · intro hne
    have hfn : inBetweenFn c0 = Real.log := by
      unfold inBetweenFn
      rw [if_neg hne]
    rw [← hv1, ← hv2, hfn]
    exact ⟨rfl, rfl⟩
  · intro hinc
    have hfn : inBetweenFn c0 = fun x => x ^ ((2:ℝ) / 3) := by
      unfold inBetweenFn
      rw [if_pos hinc]
    rw [← hv1, ← hv2, hfn]
    exact ⟨rfl, rfl⟩

/-- Witness for C9: with designated columns `median_mhc` (log) and
`median_hh_inc` (power `2/3`), both periods' outputs are the respective
maps. -/
theorem c9_power_log_transform_witness :
    (([4] : List ℝ).map (inBetweenFn "median_mhc") =
        ([4] : List ℝ).map Real.log ∧
      ([5] : List ℝ).map (inBetweenFn "median_mhc") =
        ([5] : List ℝ).map Real.log) ∧
    (([4] : List ℝ).map (inBetweenFn "median_hh_inc") =
        ([4] : List ℝ).map (fun x => x ^ ((2:ℝ) / 3)) ∧
      ([5] : List ℝ).map (inBetweenFn "median_hh_inc") =
        ([5] : List ℝ).map (fun x => x ^ ((2:ℝ) / 3))) := by
  constructor
  · exact (c9_power_log_transform ["median_mhc", "median_hh_inc"]
      (fun _ => [4]) (fun _ => [5]) "median_mhc"
      (([4] : List ℝ).map (inBetweenFn "median_mhc"))
      (([5] : List ℝ).map (inBetweenFn "median_mhc"))
      (by simp [transformInBetween])).1 (by decide)
  · exact (c9_power_log_transform ["median_mhc", "median_hh_inc"]
      (fun _ => [4]) (fun _ => [5]) "median_hh_inc"
      (([4] : List ℝ).map (inBetweenFn "median_hh_inc"))
      (([5] : List ℝ).map (inBetweenFn "median_hh_inc"))
      (by simp [transformInBetween])).2.1 rfl

/-! ## Scaling stage of `do_pca` (`sklearn.preprocessing.RobustScaler`) -/

/-- The (rational) interpolation index numpy uses for the `p`-th
percentile of `n` entries: `(n - 1) * p / 100`. -/
def quantileIndex (p : ℚ) (n : ℕ) : ℚ := ((n : ℚ) - 1) * p / 100

/-- Embeds `numpy.percentile(xs, p)` with the default linear
interpolation: with
`h = (n-1) * p/100` over the ascending sort `s`, the value is
`s[⌊h⌋] + (h - ⌊h⌋) * (s[⌊h⌋ + 1] - s[⌊h⌋])` (when `h` is an integer the
fractional factor is `0`, so reading the out-of-range `s[⌊h⌋ + 1]` as a
default is harmless). -/
noncomputable def npPercentile (p : ℚ) (xs : List ℝ) : ℝ :=
  (sortR xs).getD (⌊quantileIndex p xs.length⌋.toNat) 0 +
    ((quantileIndex p xs.length -
        ((⌊quantileIndex p xs.length⌋.toNat : ℚ)) : ℚ) : ℝ) *
      ((sortR xs).getD (⌊quantileIndex p xs.length⌋.toNat + 1) 0 -
        (sortR xs).getD (⌊quantileIndex p xs.length⌋.toNat) 0)

open Classical in
/-- Embeds `sklearn.preprocessing._data._handle_zeros_in_scale`: a zero
scale is
replaced by `1` so the transform never divides by zero. -/
noncomputable def handleZerosInScale (s : ℝ) : ℝ := if s = 0 then 1 else s

/-- Embeds `RobustScaler.fit` on one column (default settings
`with_centering=True`, `with_scaling=True`, `quantile_range=(25, 75)`):
`center_` is the column median (`np.nanmedian`), `scale_` the 75th minus
the 25th percentile, with zeros replaced by `1`. -/
noncomputable def robustScalerFit (xs : List ℝ) : ℝ × ℝ :=
  (medianList xs,
    handleZerosInScale (npPercentile 75 xs - npPercentile 25 xs))

/-- Embeds `RobustScaler` `fit` followed by `transform` on one column:
`(X - center_) / scale_`. -/
noncomputable def robustScaleColumn (xs : List ℝ) : List ℝ :=
  xs.map (fun x => (x - (robustScalerFit xs).1) / (robustScalerFit xs).2)

/-- One column of the scaling step of `do_pca`: the two periods' rows are
stacked (`np.concatenate((df1, df2), axis=0)`), and the scaler is fitted
once on the stacked column and applied to the stacked column. -/
noncomputable def doPcaScaleColumn (col1 col2 : List ℝ) : List ℝ :=
  robustScaleColumn (col1 ++ col2)

/-- C7 (counterexample to "parameters equal the median and IQR"): on a
constant stacked column the inter-quartile range is `0`, and the scale
parameter `RobustScaler` actually uses is `1`
(`_handle_zeros_in_scale`), not the IQR. -/
theorem c7_counterexample :
    robustScalerFit ([1, 1] ++ [1, 1] : List ℝ) ≠
      (medianList ([1, 1] ++ [1, 1] : List ℝ),
        npPercentile 75 ([1, 1] ++ [1, 1] : List ℝ) -
          npPercentile 25 ([1, 1] ++ [1, 1] : List ℝ)) := by
  have hsort : sortR ([1, 1] ++ [1, 1] : List ℝ) = [1, 1, 1, 1] := by
    apply sortR_of_sorted
    norm_num [List.pairwise_cons]
  have hlen : (([1, 1] ++ [1, 1] : List ℝ)).length = 4 := rfl
  have h75 : npPercentile 75 ([1, 1] ++ [1, 1] : List ℝ) = 1 := by
    unfold npPercentile
    rw [hlen, hsort, show quantileIndex 75 4 = 9 / 4 from by
      norm_num [quantileIndex], show (⌊(9 / 4 : ℚ)⌋).toNat = 2 from by
      rw [show ⌊(9 / 4 : ℚ)⌋ = 2 from by norm_num [Int.floor_eq_iff]]
      rfl]
    norm_num
  have h25 : npPercentile 25 ([1, 1] ++ [1, 1] : List ℝ) = 1 := by
    unfold npPercentile
    rw [hlen, hsort, show quantileIndex 25 4 = 3 / 4 from by
      norm_num [quantileIndex], show (⌊(3 / 4 : ℚ)⌋).toNat = 0 from by
      norm_num [Int.floor_eq_iff]]
    norm_num
  intro hcon
  have hsnd := congrArg Prod.snd hcon
  simp only [robustScalerFit] at hsnd
  rw [h75, h25] at hsnd
  norm_num [handleZerosInScale] at hsnd

/-- C7 (amended): whenever the stacked column's inter-quartile range is
nonzero (the only case `_handle_zeros_in_scale` leaves untouched), the
robust-scaling parameters used in `do_pca` equal the median and IQR
computed directly on the concatenation of the two periods' rows, and both
periods' rows are scaled with those identical shared parameters — scaling
is not period-local. -/
theorem c7_joint_robust_scaling (col1 col2 : List ℝ)
    (hiqr : npPercentile 75 (col1 ++ col2) -
        npPercentile 25 (col1 ++ col2) ≠ 0) :
    robustScalerFit (col1 ++ col2) =
      (medianList (col1 ++ col2),
        npPercentile 75 (col1 ++ col2) - npPercentile 25 (col1 ++ col2)) ∧
    doPcaScaleColumn col1 col2 =
      col1.map (fun x => (x - medianList (col1 ++ col2)) /
        (npPercentile 75 (col1 ++ col2) - npPercentile 25 (col1 ++ col2)))
      ++ col2.map (fun x => (x - medianList (col1 ++ col2)) /
        (npPercentile 75 (col1 ++ col2) -
          npPercentile 25 (col1 ++ col2))) := by
  have hfit : robustScalerFit (col1 ++ col2) =
      (medianList (col1 ++ col2),
        npPercentile 75 (col1 ++ col2) - npPercentile 25 (col1 ++ col2)) := by
    unfold robustScalerFit handleZerosInScale
    rw [if_neg hiqr]
  refine ⟨hfit, ?_⟩
  unfold doPcaScaleColumn robustScaleColumn
  rw [hfit, List.map_append]

/-- Witness for C7 (amended): stacked column `[1, 2] ++ [3, 4]` has median
`5/2` and IQR `3/2 ≠ 0`; the fitted parameters are exactly the directly
computed median and IQR of the concatenation. -/
theorem c7_joint_robust_scaling_witness :
    robustScalerFit ([1, 2] ++ [3, 4] : List ℝ) =
      (medianList ([1, 2] ++ [3, 4] : List ℝ),
        npPercentile 75 ([1, 2] ++ [3, 4] : List ℝ) -
          npPercentile 25 ([1, 2] ++ [3, 4] : List ℝ)) := by
  have hsort : sortR ([1, 2] ++ [3, 4] : List ℝ) = [1, 2, 3, 4] := by
    apply sortR_of_sorted
    norm_num [List.pairwise_cons]
  have hlen : (([1, 2] ++ [3, 4] : List ℝ)).length = 4 := rfl
  have h75 : npPercentile 75 ([1, 2] ++ [3, 4] : List ℝ) = 13 / 4 := by
    unfold npPercentile
    rw [hlen, hsort, show quantileIndex 75 4 = 9 / 4 from by
      norm_num [quantileIndex], show (⌊(9 / 4 : ℚ)⌋).toNat = 2 from by
      rw [show ⌊(9 / 4 : ℚ)⌋ = 2 from by norm_num [Int.floor_eq_iff]]
      rfl]
    norm_num
  have h25 : npPercentile 25 ([1, 2] ++ [3, 4] : List ℝ) = 7 / 4 := by
    unfold npPercentile
    rw [hlen, hsort, show quantileIndex 25 4 = 3 / 4 from by
      norm_num [quantileIndex], show (⌊(3 / 4 : ℚ)⌋).toNat = 0 from by
      norm_num [Int.floor_eq_iff]]
    norm_num
  exact (c7_joint_robust_scaling [1, 2] [3, 4]
    (by rw [h75, h25]; norm_num)).1
